import Mathlib

/- Shallow embedding of the linenoise line-editing library
   (src/linenoise.c, POSIX termios build with USE_UTF8, and src/linenoise.h).
   Buffers and C strings are lists of byte values; C int values are Nat where
   they stay non-negative and Int where negative values matter. -/

set_option linter.unusedVariables false

/-- Modelled from the spec: the UTF-8 codec lives in utf8.h and utf8.c, which
are repository files not present under src. Byte length of a UTF-8 sequence
as determined by its leading byte: 1 for ASCII and for stray continuation
bytes, 2, 3 or 4 for multibyte leading bytes. -/
def utf8_charlen (b : Nat) : Nat :=
  if b < 0xC0 then 1
  else if b < 0xE0 then 2
  else if b < 0xF0 then 3
  else 4

/-- Modelled from the spec: encode a Unicode scalar as UTF-8 bytes. This fork
stores at most 3 bytes per scalar (char buf[3] in insert_char, and fd_read
rejects sequences of length 4), so scalars are capped at 0xFFFF by hypotheses
of the theorems below. -/
def utf8_fromunicode (c : Nat) : List Nat :=
  if c < 0x80 then [c]
  else if c < 0x800 then [0xC0 + c / 64, 0x80 + c % 64]
  else [0xE0 + c / 4096, 0x80 + c / 64 % 64, 0x80 + c % 64]

/-- Source utf8_getchars (USE_UTF8 build): encodes the scalar via the codec. -/
def utf8_getchars (c : Nat) : List Nat := utf8_fromunicode c

/-- Modelled from the spec: decode the UTF-8 sequence at the head of the list,
returning the pair of the byte count and the scalar. Stray continuation
bytes, invalid leading bytes and truncated sequences decode as a single byte
each. Reading past the end of the modelled bytes gives a NUL byte. -/
def utf8_tounicode : List Nat → Nat × Nat
  | [] => (1, 0)
  | b :: rest =>
    if b < 0xC0 then (1, b)
    else if b < 0xE0 then
      match rest with
      | b1 :: _ => if b1 / 64 = 2 then (2, b % 32 * 64 + b1 % 64) else (1, b)
      | [] => (1, b)
    else if b < 0xF0 then
      match rest with
      | b1 :: b2 :: _ =>
        if b1 / 64 = 2 ∧ b2 / 64 = 2 then (3, b % 16 * 4096 + b1 % 64 * 64 + b2 % 64)
        else (1, b)
      | _ => (1, b)
    else (1, b)

theorem utf8_tounicode_fst_pos (l : List Nat) : 1 ≤ (utf8_tounicode l).1 := by
  rcases l with _ | ⟨b, _ | ⟨b1, _ | ⟨b2, rest⟩⟩⟩ <;>
    simp only [utf8_tounicode] <;> (try split_ifs) <;> simp

/-- Modelled from the spec: count of Unicode scalars in a byte list, walking
one decoded sequence at a time, as the codec strlen does. The decoder only
reports length 2 or 3 when that many bytes are present, so the explicit
matches below step over exactly the decoded byte count. -/
def utf8_strlen_aux : List Nat → Nat
  | [] => 0
  | b :: rest =>
    match (utf8_tounicode (b :: rest)).1, rest with
    | 2, _ :: r2 => 1 + utf8_strlen_aux r2
    | 3, _ :: _ :: r3 => 1 + utf8_strlen_aux r3
    | _, r => 1 + utf8_strlen_aux r

/-- Modelled from the spec: utf8_strlen over the first bytelen bytes; a
negative bytelen means the whole C string, whose bytes are the list. -/
def utf8_strlen (l : List Nat) (bytelen : Int) : Nat :=
  if bytelen < 0 then utf8_strlen_aux l
  else utf8_strlen_aux (l.take bytelen.toNat)

/-- Modelled from the spec: byte offset of the scalar with the given index,
stepping over one leading byte plus its continuation bytes per scalar. The C
code keeps walking over whatever bytes follow the array; walking past the end
of the modelled list advances one byte per scalar. -/
def utf8_index (l : List Nat) : Nat → Nat
  | 0 => 0
  | n + 1 =>
    match l with
    | [] => n + 1
    | b :: rest => utf8_charlen b + utf8_index (rest.drop (utf8_charlen b - 1)) n

/-- Length of a C string stored at the head of the list: bytes before the
first NUL. -/
def cstrlen (l : List Nat) : Nat := (l.takeWhile (fun b => b ≠ 0)).length

/-- Model of memcpy and memmove into a buffer: overwrite the bytes of dst
starting at offset off with src. The source bytes are read before any write,
which is exactly the overlap behaviour of memmove. -/
def listWrite (dst : List Nat) (off : Nat) (src : List Nat) : List Nat :=
  dst.take off ++ src ++ dst.drop (off + src.length)

/-- Byte slice of length n starting at offset off. -/
def listSlice (l : List Nat) (off n : Nat) : List Nat := (l.drop off).take n

/-- Source struct current (USE_TERMIOS build): the state of the line being
edited. buf models the whole fixed-size byte array of length bufmax; len,
chars and pos are the byte length, the scalar count and the cursor scalar
index; cols is the window width; capture models the cut buffer pointer, none
standing for NULL. The terminal fd is not modelled: bytes written to the TTY
do not change this state. -/
structure Current where
  buf : List Nat
  bufmax : Nat
  len : Nat
  chars : Nat
  pos : Nat
  cols : Int
  prompt : List Nat
  capture : Option (List Nat)
deriving Repr, DecidableEq

/-- Source has_room: len + bytes < bufmax - 1 over C ints. -/
def has_room (cur : Current) (bytes : Nat) : Prop :=
  (cur.len : Int) + bytes < (cur.bufmax : Int) - 1

instance (cur : Current) (bytes : Nat) : Decidable (has_room cur bytes) := by
  unfold has_room; infer_instance

/-- Source set_current: strncpy the string into the buffer (strncpy pads with
NUL bytes up to bufmax), force a NUL byte at index bufmax - 1, then recompute
len, chars and pos. The argument is the byte content of a NUL-terminated C
string. -/
def set_current (cur : Current) (str : List Nat) : Current :=
  let buf1 := str.take cur.bufmax ++ List.replicate (cur.bufmax - str.length) 0
  let buf2 := listWrite buf1 (cur.bufmax - 1) [0]
  let len := cstrlen buf2
  let chars := utf8_strlen buf2 (len : Int)
  { cur with buf := buf2, len := len, chars := chars, pos := chars }

/-- Source remove_char: removes the scalar at index pos. Returns the pair of
ret and the new state, where ret is 0 when nothing was removed, 2 on the TTY
fast path (the backspace bytes written to the TTY are not modelled) and 1
otherwise. The condition buf[pos] is the C code indexing the byte array by a
scalar index, compared as a signed char, hence the two-sided byte bound. Nat
subtraction agrees with the C int arithmetic whenever the content is well
formed UTF-8, where p2 is at most len; otherwise the C memmove size is
negative, which is undefined behaviour in the source. -/
def remove_char (cur : Current) (pos : Int) : Nat × Current :=
  if 0 ≤ pos ∧ pos < (cur.chars : Int) then
    let p := pos.toNat
    let p1 := utf8_index cur.buf p
    let p2 := p1 + utf8_index (cur.buf.drop p1) 1
    let ret :=
      if cur.pos = p + 1 ∧ cur.pos = cur.chars ∧
         0x20 ≤ cur.buf.getD p 0 ∧ cur.buf.getD p 0 < 0x80 ∧
         (utf8_strlen cur.prompt (-1) : Int) + utf8_strlen cur.buf (cur.len : Int)
           < cur.cols - 1
      then 2 else 1
    let buf2 := listWrite cur.buf p1 (listSlice cur.buf p2 (cur.len - p2 + 1))
    (ret, { cur with buf := buf2, len := cur.len - (p2 - p1), chars := cur.chars - 1,
                     pos := if p < cur.pos then cur.pos - 1 else cur.pos })
  else (0, cur)

/-- Source insert_char: inserts scalar ch at index pos. Returns the pair of
ret and the new state, with ret 0 when there is no room or pos is out of
range, 2 on the TTY fast path (the bytes written straight to the TTY are not
modelled) and 1 otherwise. Note that the memmove size is len - p1, so the NUL
terminator is not moved, in contrast with remove_char. -/
def insert_char (cur : Current) (pos : Int) (ch : Nat) : Nat × Current :=
  let cbuf := utf8_getchars ch
  let n := cbuf.length
  if has_room cur n ∧ 0 ≤ pos ∧ pos ≤ (cur.chars : Int) then
    let p := pos.toNat
    let p1 := utf8_index cur.buf p
    let p2 := p1 + n
    let ret :=
      if cur.pos = p ∧ cur.chars = p ∧ 0x20 ≤ ch ∧
         (utf8_strlen cur.prompt (-1) : Int) + utf8_strlen cur.buf (cur.len : Int)
           < cur.cols - 1
      then 2 else 1
    let buf1 := listWrite cur.buf p2 (listSlice cur.buf p1 (cur.len - p1))
    let buf2 := listWrite buf1 p1 cbuf
    (ret, { cur with buf := buf2, len := cur.len + n, chars := cur.chars + 1,
                     pos := if p ≤ cur.pos then cur.pos + 1 else cur.pos })
  else (0, cur)

/-- Source capture_chars: saves up to n scalars starting at pos into the cut
buffer, replacing it, but only when the whole requested span lies inside the
buffer; otherwise the cut buffer is left alone. -/
def capture_chars (cur : Current) (pos n : Int) : Current :=
  if 0 ≤ pos ∧ pos + n - 1 < (cur.chars : Int) then
    let p1 := utf8_index cur.buf pos.toNat
    let nbytes := utf8_index (cur.buf.drop p1) n.toNat
    if nbytes ≠ 0 then { cur with capture := some (listSlice cur.buf p1 nbytes) }
    else cur
  else cur

theorem remove_char_chars (cur : Current) (pos : Int)
    (h : (remove_char cur pos).1 ≠ 0) :
    (remove_char cur pos).2.chars + 1 = cur.chars := by
  by_cases hc : 0 ≤ pos ∧ pos < (cur.chars : Int)
  · simp only [remove_char, if_pos hc]
    omega
  · simp only [remove_char, if_neg hc] at h
    exact absurd rfl h

/-- Source remove_chars loop: while n decremented is truthy and remove_char
succeeds, count the removal. The loop terminates because every successful
removal decreases the scalar count. -/
def remove_chars_loop (cur : Current) (pos n : Int) : Nat × Current :=
  if n = 0 then (0, cur)
  else
    let rc := remove_char cur pos
    if h : rc.1 = 0 then (0, rc.2)
    else
      let rest := remove_chars_loop rc.2 pos (n - 1)
      (rest.1 + 1, rest.2)
termination_by n.toNat + cur.chars
decreasing_by
  have := remove_char_chars cur pos h
  omega

/-- Source remove_chars: capture the span first, then repeatedly remove at
pos; returns the count removed and the new state. -/
def remove_chars (cur : Current) (pos n : Int) : Nat × Current :=
  remove_chars_loop (capture_chars cur pos n) pos n

/-- Source insert_chars: decode and insert scalars one at a time, advancing
pos, until the string is exhausted (a NUL byte in the C string ends it) or
insert_char reports no room; returns the count inserted. -/
def insert_chars (cur : Current) (pos : Int) (s : List Nat) : Nat × Current :=
  match s with
  | [] => (0, cur)
  | b :: rest =>
    if b = 0 then (0, cur)
    else
      let d := utf8_tounicode (b :: rest)
      let ic := insert_char cur pos d.2
      if ic.1 = 0 then (0, ic.2)
      else
        let more := insert_chars ic.2 (pos + 1) ((b :: rest).drop d.1)
        (more.1 + 1, more.2)
termination_by s.length
decreasing_by
  have := utf8_tounicode_fst_pos (b :: rest)
  simp only [List.length_drop, List.length_cons]
  omega

/-- UTF-8 encoding of a list of scalars, one encoded sequence after the
other. -/
def encodeList : List Nat → List Nat
  | [] => []
  | c :: cs => utf8_fromunicode c ++ encodeList cs

/-- Abstraction relation: the edit state holds exactly the scalars cs. The
byte array has the declared size, the content bytes are the UTF-8 encoding of
cs, the scalar count and cursor agree, and every scalar fits the 3-byte cap
of this fork. -/
def stateRep (cur : Current) (cs : List Nat) : Prop :=
  cur.buf.length = cur.bufmax ∧
  cur.len < cur.bufmax ∧
  cur.buf.take cur.len = encodeList cs ∧
  cur.chars = cs.length ∧
  cur.pos ≤ cur.chars ∧
  ∀ c ∈ cs, c < 0x10000

/-- Buffer invariant of the spec: a NUL byte sits at index len, the content
bytes are well formed UTF-8 whose scalar count is chars, chars is at most
len, and the cursor lies on a scalar boundary between 0 and chars. -/
def buffer_inv (cur : Current) : Prop :=
  (∃ cs, stateRep cur cs) ∧ cur.buf.getD cur.len 1 = 0 ∧ cur.chars ≤ cur.len

example : utf8_fromunicode 0xE9 = [0xC3, 0xA9] := by decide
example : utf8_tounicode [0xC3, 0xA9, 0x61] = (2, 0xE9) := by decide
example : utf8_strlen [0xC3, 0xA9, 0x61] 3 = 2 := by decide
example : utf8_index [0xC3, 0xA9, 0x61] 1 = 2 := by decide

/-- Process-wide history state: the ordered entries (index 0 oldest, last
newest) and the configured maximum length. Entries are the byte contents of
NUL-terminated C strings. Allocation is modelled as always succeeding. -/
structure History where
  entries : List (List Nat)
  maxLen : Nat
deriving Repr, DecidableEq

/-- Source linenoiseHistoryAdd: reject when the maximum is zero, reject a
line equal to the newest entry, drop the oldest entry when at capacity, then
append. Returns the C result (1 for added, 0 for rejected) paired with the
new state. -/
def linenoiseHistoryAdd (h : History) (line : List Nat) : Nat × History :=
  if h.maxLen = 0 then (0, h)
  else if h.entries.getLast? = some line then (0, h)
  else
    let ents := if h.entries.length = h.maxLen then h.entries.tail else h.entries
    (1, { h with entries := ents ++ [line] })

/-- Source linenoiseHistorySetMaxLen: reject len below 1; otherwise keep only
the newest entries that fit (freeing the oldest), set the new maximum, and
clamp the length. Returns the C result paired with the new state. -/
def linenoiseHistorySetMaxLen (h : History) (len : Int) : Nat × History :=
  if len < 1 then (0, h)
  else
    let n := len.toNat
    let tocopy := min h.entries.length n
    (1, { entries := h.entries.drop (h.entries.length - tocopy), maxLen := n })

/-- Source linenoiseHistorySave encoding of one entry: backslash, LF and CR
become two-byte escape sequences, every other byte is written as is, and the
entry is terminated by a LF. -/
def historyEncodeEntry : List Nat → List Nat
  | [] => [10]
  | b :: rest =>
    (if b = 92 then [92, 92]
     else if b = 10 then [92, 110]
     else if b = 13 then [92, 114]
     else [b]) ++ historyEncodeEntry rest

/-- Source linenoiseHistorySave: the bytes written to the file, one encoded
entry per line. File opening is modelled as succeeding. -/
def historySaveBytes : List (List Nat) → List Nat
  | [] => []
  | e :: rest => historyEncodeEntry e ++ historySaveBytes rest

/-- Model of fgets with the LINENOISE_MAX_LINE buffer: take bytes up to and
including the first LF, but never more than 4095 bytes; return the line and
the remaining file bytes. -/
def fgetsLine (file : List Nat) : List Nat × List Nat :=
  let upto := (file.takeWhile (fun b => b ≠ 10)).length + 1
  let m := min upto 4095
  (file.take m, file.drop m)

/-- Source linenoiseHistoryLoad decode loop over the NUL-terminated fgets
buffer, whose content bytes are the list: the loop stops at a NUL byte; a
backslash takes the next byte, mapping n to LF and r to CR and anything else
to itself; other bytes pass through. A backslash as the final content byte
reads the NUL terminator itself, storing a NUL byte (the C code then walks
past the terminator, which never happens on files written by save). -/
def historyDecodeLine : List Nat → List Nat
  | [] => []
  | b :: rest =>
    if b = 0 then []
    else if b = 92 then
      match rest with
      | [] => [0]
      | c :: rest2 =>
        (if c = 110 then 10 else if c = 114 then 13 else c) :: historyDecodeLine rest2
    else b :: historyDecodeLine rest

/-- Source linenoiseHistoryLoad trailing trim: remove every trailing LF or CR
byte of the decoded line. -/
def stripTrailingCrlf (l : List Nat) : List Nat :=
  (l.reverse.dropWhile (fun b => b = 10 ∨ b = 13)).reverse

theorem fgetsLine_snd_length (b : Nat) (t : List Nat) :
    (fgetsLine (b :: t)).2.length < (b :: t).length := by
  simp only [fgetsLine, List.length_drop, List.length_cons]
  omega

/-- Source linenoiseHistoryLoad: read lines with fgets until the file is
exhausted, decode each, trim trailing CR and LF, and add it to the history.
Returns the resulting history state. -/
def historyLoadLoop (file : List Nat) (h : History) : History :=
  match file with
  | [] => h
  | b :: rest =>
    let fl := fgetsLine (b :: rest)
    historyLoadLoop fl.2 (linenoiseHistoryAdd h (stripTrailingCrlf (historyDecodeLine fl.1))).2
termination_by file.length
decreasing_by
  exact fgetsLine_snd_length b rest

/-- Byte lowering used by strcasecmp: ASCII upper-case letters map to their
lower-case forms. -/
def lowerByte (b : Nat) : Nat := if 0x41 ≤ b ∧ b ≤ 0x5A then b + 0x20 else b

/-- Model of C strcasecmp: compare lowered bytes one by one; at the first
difference return their signed difference; stop with result 0 when both
strings end together, where the end of a list and an embedded zero byte both
stand for the NUL terminator of the C string. -/
def strcasecmp : List Nat → List Nat → Int
  | [], [] => 0
  | [], b :: _ => 0 - (lowerByte b : Int)
  | a :: _, [] => (lowerByte a : Int)
  | a :: as, b :: bs =>
    if lowerByte a = lowerByte b then
      (if a = 0 then 0 else strcasecmp as bs)
    else (lowerByte a : Int) - (lowerByte b : Int)

theorem lowerByte_eq_zero (b : Nat) : lowerByte b = 0 ↔ b = 0 := by
  unfold lowerByte
  split <;> omega

/-- Source linenoiseAddCompletion: walk the vector to the first entry that
compares at or after the new string under strcasecmp, put the new string
there, and shift the tail down one slot. The net effect of the realloc, the
strdup and the shifting loop is this insertion. -/
def linenoiseAddCompletion : List (List Nat) → List Nat → List (List Nat)
  | [], str => [str]
  | c :: cs, str =>
    if strcasecmp str c ≤ 0 then str :: c :: cs
    else c :: linenoiseAddCompletion cs str

/-- Special key codes of the source enum. -/
def SPECIAL_NONE : Int := -1
def SPECIAL_UP : Int := -20
def SPECIAL_DOWN : Int := -21
def SPECIAL_LEFT : Int := -22
def SPECIAL_RIGHT : Int := -23
def SPECIAL_DELETE : Int := -24
def SPECIAL_HOME : Int := -25
def SPECIAL_END : Int := -26
def SPECIAL_INSERT : Int := -27
def SPECIAL_PAGE_UP : Int := -28
def SPECIAL_PAGE_DOWN : Int := -29
def SPECIAL_META_DOT : Int := -30

/-- Input model for the escape-sequence reader: each element of the stream is
the result of one fd_read_char(fd, 50) call, that is a byte value, or -1 when
no byte arrived within the 50 ms timeout (or on read error). An exhausted
stream stands for a terminal on which no further byte ever arrives, so every
further poll times out with -1. -/
def readChar (s : List Int) : Int × List Int := (s.headD (-1), s.tail)

/-- Source check_special while loop over c < 0: keep calling fd_read_char
until a non-negative byte arrives. Returns none when the stream is exhausted
while c is still negative, which models the C loop polling forever. -/
def waitNonneg (c : Int) (s : List Int) : Option (Int × List Int) :=
  if 0 ≤ c then some (c, s)
  else
    match s with
    | [] => none
    | x :: rest => waitNonneg x rest

/-- Source check_special discard loop for unknown extended sequences: keep
reading until a tilde or a -1 timeout result. On an exhausted stream the next
poll times out, ending the loop. -/
def discardTilde (c : Int) (s : List Int) : List Int :=
  if c = -1 ∨ c = 126 then s
  else
    match s with
    | [] => []
    | x :: rest => discardTilde x rest

/-- Source check_special, called after an ESCAPE byte was read: reads the
stream of fd_read_char results and classifies the escape sequence, returning
the resulting event code, or none when the C code blocks forever in its
retry loop. Byte values: 91 is the opening bracket, 79 is O, 46 is the dot,
126 is the tilde, 65 to 72 are A to H, 49 to 56 are the digits 1 to 8. -/
def check_special (s : List Int) : Option Int :=
  let r0 := readChar s
  let lseq := r0.1 = 91 ∨ r0.1 = 79
  match waitNonneg r0.1 r0.2 with
  | none => none
  | some (c, s1) =>
    if c = 91 ∨ c = 79 then
      if ¬ lseq then some c
      else
        let r2 := readChar s1
        let c2 := r2.1
        if c2 < 0 then some c
        else if c2 = 65 then some SPECIAL_UP
        else if c2 = 66 then some SPECIAL_DOWN
        else if c2 = 67 then some SPECIAL_RIGHT
        else if c2 = 68 then some SPECIAL_LEFT
        else if c2 = 70 then some SPECIAL_END
        else if c2 = 72 then some SPECIAL_HOME
        else if c = 91 ∧ 49 ≤ c2 ∧ c2 ≤ 56 then
          let r3 := readChar r2.2
          if r3.1 = 126 then
            if c2 = 50 then some SPECIAL_INSERT
            else if c2 = 51 then some SPECIAL_DELETE
            else if c2 = 53 then some SPECIAL_PAGE_UP
            else if c2 = 54 then some SPECIAL_PAGE_DOWN
            else if c2 = 55 then some SPECIAL_HOME
            else if c2 = 56 then some SPECIAL_END
            else some SPECIAL_NONE
          else
            let _ := discardTilde r3.1 r3.2
            some SPECIAL_NONE
        else some SPECIAL_NONE
    else if c = 46 then some SPECIAL_META_DOT
    else some c

/- Theorems. Claim theorems are named after the property they settle; shared
helper lemmas precede them. -/

/-- Claim C10: whenever insert_char returns 0 (no room, or pos outside the
valid range) or remove_char returns 0 (pos outside the valid range), the edit
state is completely unchanged: buf, len, chars, pos and capture keep their
previous values. -/
theorem insert_remove_fail_unchanged (cur : Current) (pos : Int) (ch : Nat) :
    ((insert_char cur pos ch).1 = 0 → (insert_char cur pos ch).2 = cur) ∧
    ((remove_char cur pos).1 = 0 → (remove_char cur pos).2 = cur) := by
  constructor
  · intro h
    by_cases hc : has_room cur (utf8_getchars ch).length ∧ 0 ≤ pos ∧ pos ≤ (cur.chars : Int)
    · exfalso
      simp only [insert_char, if_pos hc] at h
      revert h
      split <;> simp
    · simp only [insert_char, if_neg hc]
  · intro h
    by_cases hc : 0 ≤ pos ∧ pos < (cur.chars : Int)
    · exfalso
      simp only [remove_char, if_pos hc] at h
      revert h
      split <;> simp
    · simp only [remove_char, if_neg hc]

/-- Empty edit state over an 8-byte buffer, used as a concrete input. -/
def curEmpty : Current := ⟨[0, 0, 0, 0, 0, 0, 0, 0], 8, 0, 0, 0, 80, [], none⟩

/-- Witness for C10: at position -1 both operations fail and return the state
unchanged. -/
theorem insert_remove_fail_unchanged_witness :
    (insert_char curEmpty (-1) 97).1 = 0 ∧ (insert_char curEmpty (-1) 97).2 = curEmpty ∧
    (remove_char curEmpty (-1)).1 = 0 ∧ (remove_char curEmpty (-1)).2 = curEmpty :=
  ⟨by decide, (insert_remove_fail_unchanged curEmpty (-1) 97).1 (by decide),
   by decide, (insert_remove_fail_unchanged curEmpty (-1) 97).2 (by decide)⟩

/-- Claim C9: linenoiseHistorySetMaxLen rejects n below 1 leaving everything
unchanged, and for n at least 1 returns 1, sets the maximum to n and keeps
exactly the newest min(n, count) entries in their original order. -/
theorem historySetMaxLen_spec (h : History) (n : Int) :
    (n < 1 → linenoiseHistorySetMaxLen h n = (0, h)) ∧
    (1 ≤ n →
      (linenoiseHistorySetMaxLen h n).1 = 1 ∧
      (linenoiseHistorySetMaxLen h n).2.maxLen = n.toNat ∧
      (linenoiseHistorySetMaxLen h n).2.entries
        = h.entries.drop (h.entries.length - min h.entries.length n.toNat) ∧
      (linenoiseHistorySetMaxLen h n).2.entries.length
        = min h.entries.length n.toNat) := by
  constructor
  · intro hn
    simp [linenoiseHistorySetMaxLen, hn]
  · intro hn
    have hn2 : ¬ n < 1 := by omega
    simp only [linenoiseHistorySetMaxLen, if_neg hn2, List.length_drop]
    refine ⟨trivial, trivial, trivial, by omega⟩

/-- Witness for C9: shrinking a three-entry history to maximum 2 keeps the
newest two entries. -/
theorem historySetMaxLen_spec_witness :
    (linenoiseHistorySetMaxLen ⟨[[97], [98], [99]], 3⟩ 2).1 = 1 ∧
    (linenoiseHistorySetMaxLen ⟨[[97], [98], [99]], 3⟩ 2).2.maxLen = 2 ∧
    (linenoiseHistorySetMaxLen ⟨[[97], [98], [99]], 3⟩ 2).2.entries = [[98], [99]] ∧
    (linenoiseHistorySetMaxLen ⟨[[97], [98], [99]], 3⟩ (-1)) = (0, ⟨[[97], [98], [99]], 3⟩) := by
  have h2 := (historySetMaxLen_spec ⟨[[97], [98], [99]], 3⟩ 2).2 (by norm_num)
  have h1 := (historySetMaxLen_spec ⟨[[97], [98], [99]], 3⟩ (-1)).1 (by norm_num)
  refine ⟨h2.1, h2.2.1, ?_, h1⟩
  rw [h2.2.2.1]
  decide

/-- Claim C7: after a lone ESCAPE byte whose 50 ms follow-up poll times out
(the -1 at the head of the stream), check_special does not yield the ESCAPE
scalar 27. With no later byte the retry loop polls forever (modelled none);
when a byte such as x = 120 arrives later, that byte is returned instead.
This contradicts the documented behaviour stated above the function. -/
theorem check_special_lone_escape_bug :
    check_special [-1] = none ∧
    check_special [-1, 120] = some 120 ∧
    (120 : Int) ≠ 27 := by
  refine ⟨by decide, by decide, by decide⟩

theorem getLast?_of_tail {α : Type} (l : List α) (x : α)
    (h : l.tail.getLast? = some x) : l.getLast? = some x := by
  match l with
  | [] => simp at h
  | [a] => simp at h
  | a :: b :: t =>
    rw [List.getLast?_cons_cons]
    exact h

/-- Claim C5: linenoiseHistoryAdd returns 0 and changes nothing when the
maximum is zero or when the line equals the newest entry; otherwise it drops
the oldest entry when at capacity, appends the line and returns 1; and from a
history with no two adjacent equal entries and within its maximum it never
creates adjacent equal entries and never exceeds the maximum. Allocation is
modelled as always succeeding, so the allocation-failure branch of the claim
is vacuous here. -/
theorem historyAdd_spec (h : History) (line : List Nat)
    (hlen : h.entries.length ≤ h.maxLen)
    (hchain : h.entries.Chain' (· ≠ ·)) :
    (h.maxLen = 0 → linenoiseHistoryAdd h line = (0, h)) ∧
    (h.entries.getLast? = some line → linenoiseHistoryAdd h line = (0, h)) ∧
    (h.maxLen ≠ 0 → h.entries.getLast? ≠ some line →
      (linenoiseHistoryAdd h line).1 = 1 ∧
      (linenoiseHistoryAdd h line).2.entries =
        (if h.entries.length = h.maxLen then h.entries.tail else h.entries) ++ [line]) ∧
    (linenoiseHistoryAdd h line).2.entries.Chain' (· ≠ ·) ∧
    (linenoiseHistoryAdd h line).2.entries.length ≤ h.maxLen := by
  by_cases h0 : h.maxLen = 0
  · refine ⟨fun _ => by simp [linenoiseHistoryAdd, h0], fun _ => ?_, fun hm _ => absurd h0 hm, ?_, ?_⟩
    · simp [linenoiseHistoryAdd, h0]
    · simp only [linenoiseHistoryAdd, if_pos h0]
      exact hchain
    · simp only [linenoiseHistoryAdd, if_pos h0]
      exact hlen
  · by_cases hl : h.entries.getLast? = some line
    · refine ⟨fun hz => absurd hz h0, fun _ => ?_, fun _ hnl => absurd hl hnl, ?_, ?_⟩
      · simp [linenoiseHistoryAdd, h0, hl]
      · simp only [linenoiseHistoryAdd, if_neg h0, if_pos hl]
        exact hchain
      · simp only [linenoiseHistoryAdd, if_neg h0, if_pos hl]
        exact hlen
    · have hres : linenoiseHistoryAdd h line =
          (1, { h with entries :=
            (if h.entries.length = h.maxLen then h.entries.tail else h.entries) ++ [line] }) := by
        simp [linenoiseHistoryAdd, h0, hl]
      have hcx : ((if h.entries.length = h.maxLen then h.entries.tail else h.entries)
          ++ [line]).Chain' (· ≠ ·) := by
        rw [List.chain'_append]
        refine ⟨?_, List.chain'_singleton line, ?_⟩
        · split
          · exact hchain.tail
          · exact hchain
        · intro x hx y hy
          simp only [List.head?_cons, Option.mem_def, Option.some.injEq] at hy
          subst hy
          intro hxy
          subst hxy
          apply hl
          rw [Option.mem_def] at hx
          split at hx
          · exact getLast?_of_tail _ _ hx
          · exact hx
      refine ⟨fun hz => absurd hz h0, fun hz => absurd hz hl, fun _ _ => ⟨by rw [hres], by rw [hres]⟩, ?_, ?_⟩
      · rw [hres]
        exact hcx
      · rw [hres]
        simp only [List.length_append, List.length_singleton]
        split
        · next heq =>
          have : h.entries ≠ [] := by
            intro hnil
            rw [hnil] at heq
            exact h0 heq.symm
          simp only [List.length_tail]
          omega
        · next hne => omega

/-- Witness for C5: adding a fresh line to a one-entry history within its
maximum appends it, and the result stays within bounds with no adjacent
duplicates. -/
theorem historyAdd_spec_witness :
    (linenoiseHistoryAdd ⟨[[97]], 2⟩ [98]).1 = 1 ∧
    (linenoiseHistoryAdd ⟨[[97]], 2⟩ [98]).2.entries = [[97], [98]] ∧
    (linenoiseHistoryAdd ⟨[[97]], 2⟩ [98]).2.entries.Chain' (· ≠ ·) ∧
    (linenoiseHistoryAdd ⟨[[97]], 2⟩ [98]).2.entries.length ≤ 2 := by
  have hh := historyAdd_spec ⟨[[97]], 2⟩ [98] (by decide) (by simp)
  have h3 := hh.2.2.1 (by decide) (by decide)
  refine ⟨h3.1, ?_, hh.2.2.2.1, hh.2.2.2.2⟩
  rw [h3.2]
  decide

theorem strcasecmp_antisymm : ∀ a b : List Nat, strcasecmp b a = -strcasecmp a b := by
  intro a
  induction a with
  | nil =>
    intro b
    cases b <;> simp [strcasecmp]
  | cons x as ih =>
    intro b
    cases b with
    | nil => simp [strcasecmp]
    | cons y bs =>
      simp only [strcasecmp]
      by_cases hxy : lowerByte x = lowerByte y
      · rw [if_pos hxy, if_pos hxy.symm]
        by_cases hx0 : x = 0
        · have hy0 : y = 0 := by
            rw [← lowerByte_eq_zero, ← hxy, lowerByte_eq_zero]
            exact hx0
          rw [if_pos hx0, if_pos hy0]
          simp
        · have hy0 : ¬ y = 0 := by
            rw [← lowerByte_eq_zero, ← hxy, lowerByte_eq_zero]
            exact hx0
          rw [if_neg hx0, if_neg hy0]
          exact ih bs
      · rw [if_neg hxy, if_neg (fun hyx => hxy hyx.symm)]
        omega

theorem strcasecmp_total (a b : List Nat) :
    strcasecmp a b ≤ 0 ∨ strcasecmp b a ≤ 0 := by
  rw [strcasecmp_antisymm a b]
  omega

theorem strcasecmp_trans : ∀ a b c : List Nat,
    strcasecmp a b ≤ 0 → strcasecmp b c ≤ 0 → strcasecmp a c ≤ 0 := by
  intro a
  induction a with
  | nil =>
    intro b c _ _
    cases c with
    | nil => simp [strcasecmp]
    | cons z cs => simp [strcasecmp]
  | cons x as ih =>
    intro b c hab hbc
    cases b with
    | nil =>
      have hx0 : lowerByte x = 0 := by
        simp only [strcasecmp] at hab
        omega
      cases c with
      | nil =>
        simp only [strcasecmp]
        omega
      | cons z cs =>
        simp only [strcasecmp]
        by_cases hlz : lowerByte x = lowerByte z
        · rw [if_pos hlz, if_pos ((lowerByte_eq_zero x).mp hx0)]
        · rw [if_neg hlz]
          omega
    | cons y bs =>
      cases c with
      | nil =>
        simp only [strcasecmp] at hab hbc ⊢
        by_cases hxy : lowerByte x = lowerByte y
        · rw [if_pos hxy] at hab
          omega
        · rw [if_neg hxy] at hab
          omega
      | cons z cs =>
        simp only [strcasecmp] at hab hbc ⊢
        by_cases hxy : lowerByte x = lowerByte y
        · rw [if_pos hxy] at hab
          by_cases hyz : lowerByte y = lowerByte z
          · rw [if_pos hyz] at hbc
            rw [if_pos (hxy.trans hyz)]
            by_cases hx0 : x = 0
            · rw [if_pos hx0]
            · have hy0 : ¬ y = 0 := by
                rw [← lowerByte_eq_zero, ← hxy, lowerByte_eq_zero]
                exact hx0
              rw [if_neg hx0]
              rw [if_neg hx0] at hab
              rw [if_neg hy0] at hbc
              exact ih bs cs hab hbc
          · rw [if_neg hyz] at hbc
            have hxz : ¬ lowerByte x = lowerByte z := by rw [hxy]; exact hyz
            rw [if_neg hxz]
            omega
        · rw [if_neg hxy] at hab
          by_cases hyz : lowerByte y = lowerByte z
          · have hxz : ¬ lowerByte x = lowerByte z := by rw [← hyz]; exact hxy
            rw [if_neg hxz]
            omega
          · rw [if_neg hyz] at hbc
            by_cases hxz : lowerByte x = lowerByte z
            · exfalso
              omega
            · rw [if_neg hxz]
              omega

theorem addCompletion_perm (l : List (List Nat)) (s : List Nat) :
    (linenoiseAddCompletion l s).Perm (s :: l) := by
  induction l with
  | nil => simp [linenoiseAddCompletion]
  | cons c cs ih =>
    simp only [linenoiseAddCompletion]
    split
    · exact List.Perm.refl _
    · exact (ih.cons c).trans (List.Perm.swap s c cs)

theorem addCompletion_insertion (l : List (List Nat)) (s : List Nat) :
    ∃ k, linenoiseAddCompletion l s = l.take k ++ s :: l.drop k ∧
      ∀ x ∈ l.take k, 0 < strcasecmp s x := by
  induction l with
  | nil => exact ⟨0, rfl, by simp⟩
  | cons c cs ih =>
    by_cases hc : strcasecmp s c ≤ 0
    · refine ⟨0, ?_, by simp⟩
      simp [linenoiseAddCompletion, hc]
    · obtain ⟨k, hk, hlt⟩ := ih
      refine ⟨k + 1, ?_, ?_⟩
      · simp only [linenoiseAddCompletion, if_neg hc, List.take_succ_cons, List.drop_succ_cons,
          List.cons_append]
        rw [hk]
      · intro x hx
        rw [List.take_succ_cons] at hx
        rcases List.mem_cons.mp hx with hx2 | hx2
        · subst hx2; omega
        · exact hlt x hx2

theorem addCompletion_sorted (l : List (List Nat)) (s : List Nat)
    (hl : l.Pairwise (fun a b => strcasecmp a b ≤ 0)) :
    (linenoiseAddCompletion l s).Pairwise (fun a b => strcasecmp a b ≤ 0) := by
  induction l with
  | nil => simp [linenoiseAddCompletion]
  | cons c cs ih =>
    simp only [linenoiseAddCompletion]
    rw [List.pairwise_cons] at hl
    split
    · next hc =>
      rw [List.pairwise_cons]
      refine ⟨?_, List.Pairwise.cons hl.1 hl.2⟩
      intro x hx
      rcases List.mem_cons.mp hx with hx | hx
      · subst hx; exact hc
      · exact strcasecmp_trans s c x hc (hl.1 x hx)
    · next hc =>
      rw [List.pairwise_cons]
      refine ⟨?_, ih hl.2⟩
      intro x hx
      have hx2 := (addCompletion_perm cs s).mem_iff.mp hx
      rcases List.mem_cons.mp hx2 with hx2 | hx2
      · rcases strcasecmp_total s c with hsc | hcs
        · exact absurd hsc hc
        · rw [hx2]
          exact hcs
      · exact hl.1 x hx2

theorem foldl_addCompletion_perm (adds : List (List Nat)) :
    ∀ acc : List (List Nat),
      (adds.foldl linenoiseAddCompletion acc).Perm (acc ++ adds) := by
  induction adds with
  | nil => intro acc; simp
  | cons a as ih =>
    intro acc
    have h1 := ih (linenoiseAddCompletion acc a)
    have h2 : (linenoiseAddCompletion acc a ++ as).Perm ((a :: acc) ++ as) :=
      (addCompletion_perm acc a).append_right as
    have h3 : ((a :: acc) ++ as).Perm (acc ++ a :: as) := List.perm_middle.symm
    exact (h1.trans h2).trans h3

/-- Counterexample to claim C6 as stated: the strings a and A are equal under
strcasecmp, a is added first, yet after both insertions the later-added A
sits in front of a, so the earlier-added equal entry does not appear first. -/
theorem addCompletion_stability_cex :
    strcasecmp [97] [65] = 0 ∧
    List.foldl linenoiseAddCompletion [] [[97], [65]] = [[65], [97]] := by
  constructor <;> decide

/-- Claim C6 as amended: starting from the empty list, any sequence of
add_completion calls yields exactly the added strings (a permutation) in an
order that is non-decreasing under strcasecmp; the insertion is anti-stable
rather than stable: each new string is placed before every existing entry it
compares at or below, so every entry in front of the insertion point is
strictly smaller under strcasecmp. -/
theorem addCompletion_sorted_perm (adds : List (List Nat)) :
    (adds.foldl linenoiseAddCompletion []).Perm adds ∧
    (adds.foldl linenoiseAddCompletion []).Pairwise (fun a b => strcasecmp a b ≤ 0) ∧
    ∀ l s, ∃ k, linenoiseAddCompletion l s = l.take k ++ s :: l.drop k ∧
      ∀ x ∈ l.take k, 0 < strcasecmp s x := by
  refine ⟨foldl_addCompletion_perm adds [], ?_, fun l s => addCompletion_insertion l s⟩
  have main : ∀ (xs : List (List Nat)) (acc : List (List Nat)),
      acc.Pairwise (fun a b => strcasecmp a b ≤ 0) →
      (xs.foldl linenoiseAddCompletion acc).Pairwise (fun a b => strcasecmp a b ≤ 0) := by
    intro xs
    induction xs with
    | nil => intro acc hacc; exact hacc
    | cons a as ih =>
      intro acc hacc
      exact ih _ (addCompletion_sorted acc a hacc)
  exact main adds [] (by simp)

theorem utf8_fromunicode_ne_nil (c : Nat) : utf8_fromunicode c ≠ [] := by
  unfold utf8_fromunicode
  split_ifs <;> simp

theorem utf8_fromunicode_head_charlen (c : Nat) (hc : c < 0x10000) :
    ∃ b tail, utf8_fromunicode c = b :: tail ∧ utf8_charlen b = tail.length + 1 := by
  unfold utf8_fromunicode utf8_charlen
  by_cases h1 : c < 0x80
  · refine ⟨c, [], by rw [if_pos h1], ?_⟩
    rw [if_pos (by omega : c < 0xC0)]
    simp
  · by_cases h2 : c < 0x800
    · refine ⟨0xC0 + c / 64, [0x80 + c % 64], by rw [if_neg h1, if_pos h2], ?_⟩
      rw [if_neg (by omega : ¬ 0xC0 + c / 64 < 0xC0), if_pos (by omega : 0xC0 + c / 64 < 0xE0)]
      simp
    · refine ⟨0xE0 + c / 4096, [0x80 + c / 64 % 64, 0x80 + c % 64],
        by rw [if_neg h1, if_neg h2], ?_⟩
      rw [if_neg (by omega : ¬ 0xE0 + c / 4096 < 0xC0),
        if_neg (by omega : ¬ 0xE0 + c / 4096 < 0xE0),
        if_pos (by omega : 0xE0 + c / 4096 < 0xF0)]
      simp

theorem utf8_tounicode_fromunicode (c : Nat) (hc : c < 0x10000) (rest : List Nat) :
    utf8_tounicode (utf8_fromunicode c ++ rest) = ((utf8_fromunicode c).length, c) := by
  unfold utf8_fromunicode
  by_cases h1 : c < 0x80
  · rw [if_pos h1]
    simp only [List.cons_append, List.nil_append, utf8_tounicode]
    rw [if_pos (by omega : c < 0xC0)]
    simp
  · by_cases h2 : c < 0x800
    · rw [if_neg h1, if_pos h2]
      simp only [List.cons_append, List.nil_append, utf8_tounicode]
      rw [if_neg (by omega : ¬ 0xC0 + c / 64 < 0xC0), if_pos (by omega : 0xC0 + c / 64 < 0xE0),
        if_pos (by omega : (0x80 + c % 64) / 64 = 2)]
      simp only [Prod.mk.injEq, List.length_cons, List.length_nil]
      exact ⟨trivial, by omega⟩
    · rw [if_neg h1, if_neg h2]
      simp only [List.cons_append, List.nil_append, utf8_tounicode]
      rw [if_neg (by omega : ¬ 0xE0 + c / 4096 < 0xC0),
        if_neg (by omega : ¬ 0xE0 + c / 4096 < 0xE0),
        if_pos (by omega : 0xE0 + c / 4096 < 0xF0),
        if_pos (by exact ⟨by omega, by omega⟩ :
          (0x80 + c / 64 % 64) / 64 = 2 ∧ (0x80 + c % 64) / 64 = 2)]
      simp only [Prod.mk.injEq, List.length_cons, List.length_nil]
      exact ⟨trivial, by omega⟩

theorem encodeList_append (xs ys : List Nat) :
    encodeList (xs ++ ys) = encodeList xs ++ encodeList ys := by
  induction xs with
  | nil => simp [encodeList]
  | cons c cs ih => simp [encodeList, ih]

theorem utf8_index_encodeList (k : Nat) : ∀ (cs : List Nat) (rest : List Nat),
    k ≤ cs.length → (∀ c ∈ cs, c < 0x10000) →
    utf8_index (encodeList cs ++ rest) k = (encodeList (cs.take k)).length := by
  induction k with
  | zero =>
    intro cs rest _ _
    simp [utf8_index, encodeList]
  | succ k ih =>
    intro cs rest hk hv
    cases cs with
    | nil => simp at hk
    | cons c cs2 =>
      have hc : c < 0x10000 := hv c (List.mem_cons_self c cs2)
      obtain ⟨b, tail, henc, hcl⟩ := utf8_fromunicode_head_charlen c hc
      rw [encodeList, henc]
      simp only [List.cons_append, List.append_assoc]
      rw [utf8_index, hcl]
      simp only [Nat.add_sub_cancel]
      rw [List.drop_left' rfl]
      rw [ih cs2 rest (by simpa using hk) (fun x hx => hv x (List.mem_cons_of_mem c hx))]
      rw [List.take_succ_cons, encodeList, henc]
      simp [Nat.add_comm, Nat.add_assoc, Nat.add_left_comm]

theorem utf8_strlen_aux_step (c : Nat) (hc : c < 0x10000) (t : List Nat) :
    utf8_strlen_aux (utf8_fromunicode c ++ t) = 1 + utf8_strlen_aux t := by
  have ht := utf8_tounicode_fromunicode c hc t
  by_cases h1 : c < 0x80
  · have henc : utf8_fromunicode c = [c] := by rw [utf8_fromunicode, if_pos h1]
    rw [henc] at ht ⊢
    simp only [List.cons_append, List.nil_append] at ht ⊢
    simp [utf8_strlen_aux, ht]
  · by_cases h2 : c < 0x800
    · have henc : utf8_fromunicode c = [0xC0 + c / 64, 0x80 + c % 64] := by
        rw [utf8_fromunicode, if_neg h1, if_pos h2]
      rw [henc] at ht ⊢
      simp only [List.cons_append, List.nil_append] at ht ⊢
      simp [utf8_strlen_aux, ht]
    · have henc : utf8_fromunicode c
          = [0xE0 + c / 4096, 0x80 + c / 64 % 64, 0x80 + c % 64] := by
        rw [utf8_fromunicode, if_neg h1, if_neg h2]
      rw [henc] at ht ⊢
      simp only [List.cons_append, List.nil_append] at ht ⊢
      simp [utf8_strlen_aux, ht]

theorem utf8_strlen_aux_encodeList (cs : List Nat) (hv : ∀ c ∈ cs, c < 0x10000) :
    utf8_strlen_aux (encodeList cs) = cs.length := by
  induction cs with
  | nil =>
    rw [encodeList, utf8_strlen_aux]
    simp
  | cons c cs2 ih =>
    rw [encodeList, utf8_strlen_aux_step c (hv c (List.mem_cons_self c cs2))]
    rw [ih (fun x hx => hv x (List.mem_cons_of_mem c hx))]
    simp [Nat.add_comm]

theorem insertIdx_eq_take_cons_drop {α : Type} (p : Nat) : ∀ (l : List α) (a : α),
    p ≤ l.length → l.insertIdx p a = l.take p ++ a :: l.drop p := by
  induction p with
  | zero => intro l a _; simp
  | succ p ih =>
    intro l a hp
    cases l with
    | nil => simp at hp
    | cons x xs =>
      simp only [List.insertIdx_succ_cons, List.take_succ_cons, List.drop_succ_cons,
        List.cons_append]
      rw [ih xs a (by simpa using hp)]

theorem listWrite_at (X Y src : List Nat) (k : Nat) (hk : k = X.length) :
    listWrite (X ++ Y) k src = X ++ src ++ Y.drop src.length := by
  subst hk
  unfold listWrite
  rw [List.take_left, List.drop_append]

theorem stateRep_encLen {cur : Current} {cs : List Nat} (hrep : stateRep cur cs) :
    (encodeList cs).length = cur.len := by
  obtain ⟨h1, h2, h3, _⟩ := hrep
  rw [← h3, List.length_take]
  omega

theorem stateRep_buf_split {cur : Current} {cs : List Nat} (hrep : stateRep cur cs) :
    cur.buf = encodeList cs ++ cur.buf.drop cur.len := by
  conv_lhs => rw [← List.take_append_drop cur.len cur.buf]
  rw [hrep.2.2.1]

theorem stateRep_take_drop {cur : Current} {cs : List Nat} (hrep : stateRep cur cs) (p : Nat) :
    encodeList cs = encodeList (cs.take p) ++ encodeList (cs.drop p) := by
  conv_lhs => rw [← List.take_append_drop p cs]
  exact encodeList_append _ _

theorem stateRep_utf8_index {cur : Current} {cs : List Nat} (hrep : stateRep cur cs)
    (p : Nat) (hp : p ≤ cs.length) :
    utf8_index cur.buf p = (encodeList (cs.take p)).length := by
  conv_lhs => rw [stateRep_buf_split hrep]
  exact utf8_index_encodeList p cs _ hp hrep.2.2.2.2.2

theorem stateRep_strlen {cur : Current} {cs : List Nat} (hrep : stateRep cur cs) :
    utf8_strlen cur.buf (cur.len : Int) = cur.chars := by
  unfold utf8_strlen
  rw [if_neg (by omega : ¬ (cur.len : Int) < 0)]
  rw [Int.toNat_natCast, hrep.2.2.1, utf8_strlen_aux_encodeList cs hrep.2.2.2.2.2,
    hrep.2.2.2.1]

theorem insert_char_eq (cur : Current) (cs : List Nat) (hrep : stateRep cur cs)
    (pos : Int) (ch : Nat) (hch : ch < 0x10000) (hpos : 0 ≤ pos)
    (hpe : pos ≤ (cur.chars : Int)) (hroom : has_room cur (utf8_getchars ch).length) :
    insert_char cur pos ch =
      ((if cur.pos = pos.toNat ∧ cur.chars = pos.toNat ∧ 0x20 ≤ ch ∧
           (utf8_strlen cur.prompt (-1) : Int) + (cur.chars : Int) < cur.cols - 1
        then 2 else 1),
       { cur with
           buf := encodeList (cs.take pos.toNat) ++ utf8_getchars ch
                  ++ encodeList (cs.drop pos.toNat)
                  ++ cur.buf.drop (cur.len + (utf8_getchars ch).length),
           len := cur.len + (utf8_getchars ch).length,
           chars := cur.chars + 1,
           pos := if pos.toNat ≤ cur.pos then cur.pos + 1 else cur.pos }) := by
  have hp : pos.toNat ≤ cs.length := by
    have h := hrep.2.2.2.1
    omega
  have hE1 := stateRep_utf8_index hrep pos.toNat hp
  have hsplitE := stateRep_take_drop hrep pos.toNat
  have hencLen := stateRep_encLen hrep
  have hbufsp := stateRep_buf_split hrep
  have hE1len : (encodeList (cs.take pos.toNat)).length ≤ cur.len := by
    rw [← hencLen, hsplitE, List.length_append]
    omega
  have hE2len : (encodeList (cs.drop pos.toNat)).length
      = cur.len - (encodeList (cs.take pos.toNat)).length := by
    rw [← hencLen]
    conv_rhs => rw [hsplitE]
    rw [List.length_append]
    omega
  have hRlen : (cur.buf.drop cur.len).length = cur.bufmax - cur.len := by
    rw [List.length_drop, hrep.1]
  have hroom2 : cur.len + (utf8_getchars ch).length + 1 < cur.bufmax := by
    have h := hroom
    unfold has_room at h
    omega
  have hguard : has_room cur (utf8_getchars ch).length ∧ 0 ≤ pos ∧ pos ≤ (cur.chars : Int) :=
    ⟨hroom, hpos, hpe⟩
  have hTlen : (utf8_getchars ch).length
      ≤ (encodeList (cs.drop pos.toNat) ++ cur.buf.drop cur.len).length := by
    rw [List.length_append, hE2len, hRlen]
    omega
  simp only [insert_char, if_pos hguard]
  simp only [Prod.mk.injEq]
  constructor
  · rw [stateRep_strlen hrep]
  · have hS : listSlice cur.buf (encodeList (cs.take pos.toNat)).length
        (cur.len - (encodeList (cs.take pos.toNat)).length)
        = encodeList (cs.drop pos.toNat) := by
      unfold listSlice
      conv_lhs => rw [hbufsp, hsplitE, List.append_assoc]
      rw [List.drop_left]
      exact List.take_left' hE2len
    have hA2 : cur.buf
        = (encodeList (cs.take pos.toNat)
            ++ (encodeList (cs.drop pos.toNat) ++ cur.buf.drop cur.len).take
                 (utf8_getchars ch).length)
          ++ (encodeList (cs.drop pos.toNat) ++ cur.buf.drop cur.len).drop
               (utf8_getchars ch).length := by
      conv_lhs => rw [hbufsp, hsplitE, List.append_assoc]
      rw [List.append_assoc, List.take_append_drop]
    have hw1 : listWrite cur.buf
        ((encodeList (cs.take pos.toNat)).length + (utf8_getchars ch).length)
        (encodeList (cs.drop pos.toNat))
        = (encodeList (cs.take pos.toNat)
            ++ (encodeList (cs.drop pos.toNat) ++ cur.buf.drop cur.len).take
                 (utf8_getchars ch).length)
          ++ (encodeList (cs.drop pos.toNat)
              ++ (cur.buf.drop cur.len).drop (utf8_getchars ch).length) := by
      conv_lhs => rw [hA2]
      rw [listWrite_at _ _ _ _
        (by rw [List.length_append, List.length_take]; omega)]
      rw [List.drop_drop]
      have harith : (utf8_getchars ch).length + (encodeList (cs.drop pos.toNat)).length
          = (encodeList (cs.drop pos.toNat)).length + (utf8_getchars ch).length := by
        omega
      rw [harith, List.drop_append]
      simp only [List.append_assoc]
    have hw2 : listWrite
        ((encodeList (cs.take pos.toNat)
            ++ (encodeList (cs.drop pos.toNat) ++ cur.buf.drop cur.len).take
                 (utf8_getchars ch).length)
          ++ (encodeList (cs.drop pos.toNat)
              ++ (cur.buf.drop cur.len).drop (utf8_getchars ch).length))
        (encodeList (cs.take pos.toNat)).length (utf8_getchars ch)
        = encodeList (cs.take pos.toNat) ++ utf8_getchars ch
          ++ (encodeList (cs.drop pos.toNat)
              ++ (cur.buf.drop cur.len).drop (utf8_getchars ch).length) := by
      rw [List.append_assoc]
      rw [listWrite_at _ _ _ _ rfl]
      congr 1
      rw [List.drop_append_eq_append_drop]
      rw [List.drop_of_length_le (by rw [List.length_take]; omega)]
      rw [List.length_take]
      have hmin : min (utf8_getchars ch).length
          (encodeList (cs.drop pos.toNat) ++ cur.buf.drop cur.len).length
          = (utf8_getchars ch).length := by omega
      rw [hmin]
      simp
    simp only [Current.mk.injEq, and_true]
    rw [hE1, hS, hw1, hw2, List.drop_drop]
    simp only [List.append_assoc]

theorem remove_char_eq (cur : Current) (cs : List Nat) (hrep : stateRep cur cs)
    (pos : Int) (hpos : 0 ≤ pos) (hlt : pos < (cur.chars : Int)) :
    remove_char cur pos =
      ((if cur.pos = pos.toNat + 1 ∧ cur.pos = cur.chars ∧
           0x20 ≤ cur.buf.getD pos.toNat 0 ∧ cur.buf.getD pos.toNat 0 < 0x80 ∧
           (utf8_strlen cur.prompt (-1) : Int) + (cur.chars : Int) < cur.cols - 1
        then 2 else 1),
       { cur with
           buf := encodeList (cs.take pos.toNat) ++ encodeList (cs.drop (pos.toNat + 1))
                  ++ (cur.buf.drop cur.len).take 1
                  ++ cur.buf.drop
                       (cur.len - (utf8_fromunicode (cs.getD pos.toNat 0)).length + 1),
           len := cur.len - (utf8_fromunicode (cs.getD pos.toNat 0)).length,
           chars := cur.chars - 1,
           pos := if pos.toNat < cur.pos then cur.pos - 1 else cur.pos }) := by
  have hplen : pos.toNat < cs.length := by
    have h := hrep.2.2.2.1
    omega
  have hgetD : cs.getD pos.toNat 0 = cs[pos.toNat] := by
    simp [List.getD_eq_getElem?_getD, List.getElem?_eq_getElem hplen]
  have hcp : cs.getD pos.toNat 0 < 0x10000 := by
    rw [hgetD]
    exact hrep.2.2.2.2.2 _ (List.getElem_mem hplen)
  have hdropc : cs.drop pos.toNat = cs.getD pos.toNat 0 :: cs.drop (pos.toNat + 1) := by
    rw [List.drop_eq_getElem_cons hplen, hgetD]
  have hE1 := stateRep_utf8_index hrep pos.toNat (le_of_lt hplen)
  have hsplitE := stateRep_take_drop hrep pos.toNat
  have hsplit3 : encodeList cs
      = encodeList (cs.take pos.toNat)
        ++ (utf8_fromunicode (cs.getD pos.toNat 0)
            ++ encodeList (cs.drop (pos.toNat + 1))) := by
    rw [hsplitE, hdropc, encodeList]
  have hencLen := stateRep_encLen hrep
  have hbufsp := stateRep_buf_split hrep
  have hE1len : (encodeList (cs.take pos.toNat)).length
        + (utf8_fromunicode (cs.getD pos.toNat 0)).length
        + (encodeList (cs.drop (pos.toNat + 1))).length = cur.len := by
    rw [← hencLen]
    conv_rhs => rw [hsplit3]
    simp only [List.length_append]
    omega
  have hRlen : (cur.buf.drop cur.len).length = cur.bufmax - cur.len := by
    rw [List.length_drop, hrep.1]
  have hRne : 1 ≤ (cur.buf.drop cur.len).length := by
    rw [hRlen]
    have h := hrep.2.1
    omega
  have hguard : 0 ≤ pos ∧ pos < (cur.chars : Int) := ⟨hpos, hlt⟩
  have hdrop1 : cur.buf.drop (encodeList (cs.take pos.toNat)).length
      = utf8_fromunicode (cs.getD pos.toNat 0)
        ++ (encodeList (cs.drop (pos.toNat + 1)) ++ cur.buf.drop cur.len) := by
    conv_lhs => rw [hbufsp, hsplit3, List.append_assoc]
    rw [List.drop_left]
    rw [List.append_assoc]
  have hidx1 : utf8_index (cur.buf.drop (encodeList (cs.take pos.toNat)).length) 1
      = (utf8_fromunicode (cs.getD pos.toNat 0)).length := by
    have hx := utf8_index_encodeList 1 [cs.getD pos.toNat 0]
      (encodeList (cs.drop (pos.toNat + 1)) ++ cur.buf.drop cur.len)
      (by simp) (by simpa using hcp)
    simp only [encodeList, List.append_nil, List.take_succ_cons, List.take_zero] at hx
    rw [hdrop1]
    exact hx
  simp only [remove_char, if_pos hguard]
  simp only [Prod.mk.injEq]
  constructor
  · rw [stateRep_strlen hrep]
  · have hS : listSlice cur.buf
        ((encodeList (cs.take pos.toNat)).length
          + (utf8_fromunicode (cs.getD pos.toNat 0)).length)
        (cur.len
          - ((encodeList (cs.take pos.toNat)).length
             + (utf8_fromunicode (cs.getD pos.toNat 0)).length) + 1)
        = encodeList (cs.drop (pos.toNat + 1)) ++ (cur.buf.drop cur.len).take 1 := by
      unfold listSlice
      have hd2 : cur.buf.drop
          ((encodeList (cs.take pos.toNat)).length
            + (utf8_fromunicode (cs.getD pos.toNat 0)).length)
          = encodeList (cs.drop (pos.toNat + 1)) ++ cur.buf.drop cur.len := by
        rw [← List.drop_drop, hdrop1, List.drop_left]
      rw [hd2]
      rw [List.take_append_eq_append_take]
      have harg : cur.len
          - ((encodeList (cs.take pos.toNat)).length
             + (utf8_fromunicode (cs.getD pos.toNat 0)).length) + 1
          = (encodeList (cs.drop (pos.toNat + 1))).length + 1 := by
        omega
      rw [harg]
      rw [List.take_of_length_le (by omega)]
      congr 2
      omega
    rw [hE1, hidx1, hS]
    simp only [Current.mk.injEq, and_true]
    have hw : listWrite cur.buf (encodeList (cs.take pos.toNat)).length
        (encodeList (cs.drop (pos.toNat + 1)) ++ (cur.buf.drop cur.len).take 1)
        = encodeList (cs.take pos.toNat)
          ++ (encodeList (cs.drop (pos.toNat + 1)) ++ (cur.buf.drop cur.len).take 1)
          ++ cur.buf.drop
               (cur.len - (utf8_fromunicode (cs.getD pos.toNat 0)).length + 1) := by
      unfold listWrite
      have ht : cur.buf.take (encodeList (cs.take pos.toNat)).length
          = encodeList (cs.take pos.toNat) := by
        conv_lhs => rw [hbufsp, hsplit3]
        rw [List.append_assoc]
        exact List.take_left' rfl
      rw [ht]
      have hlen2 : (encodeList (cs.drop (pos.toNat + 1))
            ++ (cur.buf.drop cur.len).take 1).length
          = (encodeList (cs.drop (pos.toNat + 1))).length + 1 := by
        rw [List.length_append, List.length_take]
        omega
      rw [hlen2]
      have harg2 : (encodeList (cs.take pos.toNat)).length
            + ((encodeList (cs.drop (pos.toNat + 1))).length + 1)
          = cur.len - (utf8_fromunicode (cs.getD pos.toNat 0)).length + 1 := by
        omega
      rw [harg2]
    rw [hw]
    refine ⟨by simp only [List.append_assoc], trivial, by omega⟩

theorem remove_char_fail (cur : Current) (pos : Int)
    (h : ¬ (0 ≤ pos ∧ pos < (cur.chars : Int))) : remove_char cur pos = (0, cur) := by
  simp only [remove_char, if_neg h]

theorem remove_char_fst_ne (cur : Current) (pos : Int)
    (h : 0 ≤ pos ∧ pos < (cur.chars : Int)) : (remove_char cur pos).1 ≠ 0 := by
  simp only [remove_char, if_pos h]
  split <;> simp

theorem remove_char_capture (cur : Current) (pos : Int) :
    (remove_char cur pos).2.capture = cur.capture := by
  unfold remove_char
  split <;> rfl

theorem remove_chars_loop_unfold (cur : Current) (pos n : Int) :
    remove_chars_loop cur pos n =
      if n = 0 then (0, cur)
      else if (remove_char cur pos).1 = 0 then (0, (remove_char cur pos).2)
      else ((remove_chars_loop (remove_char cur pos).2 pos (n - 1)).1 + 1,
            (remove_chars_loop (remove_char cur pos).2 pos (n - 1)).2) := by
  rw [remove_chars_loop.eq_def]
  split
  · rfl
  · simp only [dite_eq_ite]

theorem remove_chars_loop_spec (m : Nat) : ∀ (n : Int) (cur : Current) (pos : Int),
    0 ≤ n → n.toNat = m → 0 ≤ pos →
    (remove_chars_loop cur pos n).1 = min n.toNat (cur.chars - pos.toNat) ∧
    (remove_chars_loop cur pos n).2.capture = cur.capture := by
  induction m with
  | zero =>
    intro n cur pos hn hm hpos
    have hn0 : n = 0 := by omega
    subst hn0
    rw [remove_chars_loop_unfold]
    simp
  | succ m ih =>
    intro n cur pos hn hm hpos
    have hne : ¬ n = 0 := by omega
    rw [remove_chars_loop_unfold, if_neg hne]
    by_cases hc : pos < (cur.chars : Int)
    · have hfst : (remove_char cur pos).1 ≠ 0 := remove_char_fst_ne cur pos ⟨hpos, hc⟩
      rw [if_neg hfst]
      have hch := remove_char_chars cur pos hfst
      have hcap := remove_char_capture cur pos
      obtain ⟨h1, h2⟩ := ih (n - 1) (remove_char cur pos).2 pos (by omega) (by omega) hpos
      constructor
      · dsimp only
        rw [h1]
        omega
      · dsimp only
        rw [h2, hcap]
    · have hguard : ¬ (0 ≤ pos ∧ pos < (cur.chars : Int)) := fun h => hc h.2
      rw [remove_char_fail cur pos hguard]
      dsimp only
      rw [if_pos rfl]
      refine ⟨by dsimp only; omega, rfl⟩

theorem capture_chars_spec (cur : Current) (cs : List Nat) (hrep : stateRep cur cs)
    (pos n : Int) (hpos : 0 ≤ pos) (hn : 1 ≤ n) :
    (pos + n ≤ (cur.chars : Int) →
      capture_chars cur pos n
        = { cur with capture := some (encodeList ((cs.drop pos.toNat).take n.toNat)) }) ∧
    ((cur.chars : Int) < pos + n → capture_chars cur pos n = cur) := by
  constructor
  · intro hle
    have hguard : 0 ≤ pos ∧ pos + n - 1 < (cur.chars : Int) := ⟨hpos, by omega⟩
    simp only [capture_chars, if_pos hguard]
    have hp : pos.toNat ≤ cs.length := by
      have h := hrep.2.2.2.1
      omega
    have hE1 := stateRep_utf8_index hrep pos.toNat hp
    have hdropE : cur.buf.drop (encodeList (cs.take pos.toNat)).length
        = encodeList (cs.drop pos.toNat) ++ cur.buf.drop cur.len := by
      conv_lhs => rw [stateRep_buf_split hrep, stateRep_take_drop hrep pos.toNat,
        List.append_assoc]
      rw [List.drop_left]
    have hchars := hrep.2.2.2.1
    have hnb : utf8_index (encodeList (cs.drop pos.toNat) ++ cur.buf.drop cur.len) n.toNat
        = (encodeList ((cs.drop pos.toNat).take n.toNat)).length :=
      utf8_index_encodeList n.toNat (cs.drop pos.toNat) _
        (by rw [List.length_drop]; omega)
        (fun c hc => hrep.2.2.2.2.2 c (List.mem_of_mem_drop hc))
    rw [hE1, hdropE, hnb]
    have hne2 : (encodeList ((cs.drop pos.toNat).take n.toNat)).length ≠ 0 := by
      cases hcs : (cs.drop pos.toNat).take n.toNat with
      | nil =>
        exfalso
        have hl : ((cs.drop pos.toNat).take n.toNat).length = 0 := by rw [hcs]; rfl
        rw [List.length_take, List.length_drop] at hl
        omega
      | cons a t =>
        rw [encodeList, List.length_append]
        have := utf8_fromunicode_ne_nil a
        have hpos2 : 0 < (utf8_fromunicode a).length := List.length_pos.mpr this
        omega
    rw [if_pos hne2]
    have hslice : listSlice cur.buf (encodeList (cs.take pos.toNat)).length
        (encodeList ((cs.drop pos.toNat).take n.toNat)).length
        = encodeList ((cs.drop pos.toNat).take n.toNat) := by
      unfold listSlice
      rw [hdropE]
      have hsp : encodeList (cs.drop pos.toNat)
          = encodeList ((cs.drop pos.toNat).take n.toNat)
            ++ encodeList ((cs.drop pos.toNat).drop n.toNat) := by
        conv_lhs => rw [← List.take_append_drop n.toNat (cs.drop pos.toNat)]
        exact encodeList_append _ _
      rw [hsp, List.append_assoc]
      exact List.take_left _ _
    rw [hslice]
  · intro hgt
    have hguard : ¬ (0 ≤ pos ∧ pos + n - 1 < (cur.chars : Int)) := by
      intro h
      omega
    simp only [capture_chars, if_neg hguard]

theorem insert_char_fail (cur : Current) (pos : Int) (ch : Nat)
    (h : ¬ (has_room cur (utf8_getchars ch).length ∧ 0 ≤ pos ∧ pos ≤ (cur.chars : Int))) :
    insert_char cur pos ch = (0, cur) := by
  simp only [insert_char, if_neg h]

theorem insert_char_stateRep (cur : Current) (cs : List Nat) (hrep : stateRep cur cs)
    (pos : Int) (ch : Nat) (hch : ch < 0x10000) (hpos : 0 ≤ pos)
    (hpe : pos ≤ (cur.chars : Int)) (hroom : has_room cur (utf8_getchars ch).length) :
    stateRep (insert_char cur pos ch).2 (cs.insertIdx pos.toNat ch) := by
  rw [insert_char_eq cur cs hrep pos ch hch hpos hpe hroom]
  have hp : pos.toNat ≤ cs.length := by
    have h := hrep.2.2.2.1
    omega
  have hencLen := stateRep_encLen hrep
  have hsplitE := stateRep_take_drop hrep pos.toNat
  have hE1E2 : (encodeList (cs.take pos.toNat)).length
      + (encodeList (cs.drop pos.toNat)).length = cur.len := by
    rw [← hencLen]
    conv_rhs => rw [hsplitE]
    rw [List.length_append]
  have hroom2 : cur.len + (utf8_getchars ch).length + 1 < cur.bufmax := by
    have h := hroom
    unfold has_room at h
    omega
  have hRlen : (cur.buf.drop (cur.len + (utf8_getchars ch).length)).length
      = cur.bufmax - (cur.len + (utf8_getchars ch).length) := by
    rw [List.length_drop, hrep.1]
  have hins : cs.insertIdx pos.toNat ch = cs.take pos.toNat ++ ch :: cs.drop pos.toNat :=
    insertIdx_eq_take_cons_drop pos.toNat cs ch hp
  refine ⟨?_, ?_, ?_, ?_, ?_, ?_⟩
  · dsimp only
    simp only [List.length_append]
    omega
  · dsimp only
    omega
  · dsimp only
    rw [hins, encodeList_append, encodeList]
    rw [List.take_left' (by simp only [List.length_append]; omega)]
    simp only [List.append_assoc]
    rfl
  · dsimp only
    rw [List.length_insertIdx pos.toNat cs hp, hrep.2.2.2.1]
  · dsimp only
    have h := hrep.2.2.2.2.1
    split <;> omega
  · intro c hc
    rw [hins] at hc
    rcases List.mem_append.mp hc with hc2 | hc2
    · exact hrep.2.2.2.2.2 c (List.mem_of_mem_take hc2)
    · rcases List.mem_cons.mp hc2 with hc3 | hc3
      · rw [hc3]; exact hch
      · exact hrep.2.2.2.2.2 c (List.mem_of_mem_drop hc3)

theorem remove_char_stateRep (cur : Current) (cs : List Nat) (hrep : stateRep cur cs)
    (pos : Int) (hpos : 0 ≤ pos) (hlt : pos < (cur.chars : Int)) :
    stateRep (remove_char cur pos).2 (cs.eraseIdx pos.toNat) := by
  rw [remove_char_eq cur cs hrep pos hpos hlt]
  have hplen : pos.toNat < cs.length := by
    have h := hrep.2.2.2.1
    omega
  have hencLen := stateRep_encLen hrep
  have hgetD : cs.getD pos.toNat 0 = cs[pos.toNat] := by
    simp [List.getD_eq_getElem?_getD, List.getElem?_eq_getElem hplen]
  have hdropc : cs.drop pos.toNat = cs.getD pos.toNat 0 :: cs.drop (pos.toNat + 1) := by
    rw [List.drop_eq_getElem_cons hplen, hgetD]
  have hsplit3 : encodeList cs
      = encodeList (cs.take pos.toNat)
        ++ (utf8_fromunicode (cs.getD pos.toNat 0)
            ++ encodeList (cs.drop (pos.toNat + 1))) := by
    rw [stateRep_take_drop hrep pos.toNat, hdropc, encodeList]
  have hE1len : (encodeList (cs.take pos.toNat)).length
        + (utf8_fromunicode (cs.getD pos.toNat 0)).length
        + (encodeList (cs.drop (pos.toNat + 1))).length = cur.len := by
    rw [← hencLen]
    conv_rhs => rw [hsplit3]
    simp only [List.length_append]
    omega
  have hRlen : (cur.buf.drop cur.len).length = cur.bufmax - cur.len := by
    rw [List.length_drop, hrep.1]
  have hlb := hrep.2.1
  have herase : cs.eraseIdx pos.toNat = cs.take pos.toNat ++ cs.drop (pos.toNat + 1) :=
    List.eraseIdx_eq_take_drop_succ cs pos.toNat
  refine ⟨?_, ?_, ?_, ?_, ?_, ?_⟩
  · dsimp only
    simp only [List.length_append, List.length_take, List.length_drop, hrep.1]
    omega
  · dsimp only
    omega
  · dsimp only
    rw [herase, encodeList_append]
    rw [List.append_assoc]
    rw [List.take_left' (by simp only [List.length_append]; omega)]
  · dsimp only
    rw [herase, List.length_append, List.length_take, List.length_drop, hrep.2.2.2.1]
    omega
  · dsimp only
    have h := hrep.2.2.2.2.1
    split <;> omega
  · intro c hc
    rw [herase] at hc
    rcases List.mem_append.mp hc with hc2 | hc2
    · exact hrep.2.2.2.2.2 c (List.mem_of_mem_take hc2)
    · exact hrep.2.2.2.2.2 c (List.mem_of_mem_drop hc2)

theorem stateRep_take_front {cur : Current} {cs : List Nat} (hrep : stateRep cur cs)
    (p : Nat) (hp : p ≤ cs.length) :
    cur.buf.take (utf8_index cur.buf p) = encodeList (cs.take p) := by
  rw [stateRep_utf8_index hrep p hp]
  conv_lhs => rw [stateRep_buf_split hrep, stateRep_take_drop hrep p, List.append_assoc]
  exact List.take_left' rfl

theorem stateRep_slice_suffix {cur : Current} {cs : List Nat} (hrep : stateRep cur cs)
    (p : Nat) (hp : p ≤ cs.length) :
    listSlice cur.buf (utf8_index cur.buf p) (cur.len - utf8_index cur.buf p)
      = encodeList (cs.drop p) := by
  rw [stateRep_utf8_index hrep p hp]
  unfold listSlice
  conv_lhs => rw [stateRep_buf_split hrep, stateRep_take_drop hrep p, List.append_assoc]
  rw [List.drop_left]
  have h1 := stateRep_encLen hrep
  rw [stateRep_take_drop hrep p, List.length_append] at h1
  exact List.take_left' (by omega)

/-- Claim C3 as amended: insert_char returns 0 exactly when there is no room;
on success it splices the UTF-8 encoding of the scalar in at the byte offset
of pos, shifting the tail right, and it returns 2 exactly when the insertion
is at the end of the buffer at the cursor, the scalar is printable (at least
0x20) and the visible width BEFORE the insertion (prompt scalars plus buffer
scalars) is strictly below cols - 1, that is, the width after the insertion
is strictly below cols. The claim as stated demands width after insertion
strictly below cols - 1, which the code does not enforce. -/
theorem insert_char_return_spec (cur : Current) (cs : List Nat) (hrep : stateRep cur cs)
    (pos : Int) (ch : Nat) (hch : ch < 0x10000) (hpos : 0 ≤ pos)
    (hpe : pos ≤ (cur.chars : Int)) :
    ((insert_char cur pos ch).1 = 0 ↔ ¬ has_room cur (utf8_getchars ch).length) ∧
    (has_room cur (utf8_getchars ch).length →
      (insert_char cur pos ch).2.buf.take (insert_char cur pos ch).2.len
        = cur.buf.take (utf8_index cur.buf pos.toNat) ++ utf8_getchars ch
          ++ listSlice cur.buf (utf8_index cur.buf pos.toNat)
              (cur.len - utf8_index cur.buf pos.toNat) ∧
      (insert_char cur pos ch).2.len = cur.len + (utf8_getchars ch).length ∧
      ((insert_char cur pos ch).1 = 2 ↔
        cur.pos = pos.toNat ∧ cur.chars = pos.toNat ∧ 0x20 ≤ ch ∧
          (utf8_strlen cur.prompt (-1) : Int) + (cur.chars : Int) < cur.cols - 1)) := by
  have hp : pos.toNat ≤ cs.length := by
    have h := hrep.2.2.2.1
    omega
  constructor
  · constructor
    · intro h0 hr
      have heq := insert_char_eq cur cs hrep pos ch hch hpos hpe hr
      rw [heq] at h0
      dsimp only at h0
      split at h0 <;> omega
    · intro hnr
      rw [insert_char_fail cur pos ch (fun hh => hnr hh.1)]
  · intro hroom
    have heq := insert_char_eq cur cs hrep pos ch hch hpos hpe hroom
    have hrep1 := insert_char_stateRep cur cs hrep pos ch hch hpos hpe hroom
    refine ⟨?_, ?_, ?_⟩
    · rw [stateRep_take_front hrep pos.toNat hp, stateRep_slice_suffix hrep pos.toNat hp]
      rw [hrep1.2.2.1]
      rw [insertIdx_eq_take_cons_drop pos.toNat cs ch hp, encodeList_append, encodeList]
      simp only [List.append_assoc]
      rfl
    · rw [heq]
    · rw [heq]
      dsimp only
      by_cases hC : cur.pos = pos.toNat ∧ cur.chars = pos.toNat ∧ 0x20 ≤ ch ∧
          (utf8_strlen cur.prompt (-1) : Int) + (cur.chars : Int) < cur.cols - 1
      · rw [if_pos hC]
        exact iff_of_true rfl hC
      · rw [if_neg hC]
        exact iff_of_false (by omega) hC

/-- Claim C4 as amended: for a state satisfying the buffer invariant, a
successful insert_char followed by remove_char at the same position restores
the content bytes buf[0..len), len, chars, the cursor and the capture slot.
The full byte-for-byte claim fails: the NUL terminator slot is not restored
(see the counterexample), because insert_char does not move the terminator. -/
theorem insert_remove_roundtrip (cur : Current) (cs : List Nat) (hrep : stateRep cur cs)
    (pos : Int) (ch : Nat) (hch : ch < 0x10000) (hpos : 0 ≤ pos)
    (hpe : pos ≤ (cur.chars : Int)) (hsucc : (insert_char cur pos ch).1 ≠ 0) :
    (remove_char (insert_char cur pos ch).2 pos).2.buf.take
        (remove_char (insert_char cur pos ch).2 pos).2.len = cur.buf.take cur.len ∧
    (remove_char (insert_char cur pos ch).2 pos).2.len = cur.len ∧
    (remove_char (insert_char cur pos ch).2 pos).2.chars = cur.chars ∧
    (remove_char (insert_char cur pos ch).2 pos).2.pos = cur.pos ∧
    (remove_char (insert_char cur pos ch).2 pos).2.capture = cur.capture := by
  have hroom : has_room cur (utf8_getchars ch).length := by
    by_contra hnr
    rw [insert_char_fail cur pos ch (fun hh => hnr hh.1)] at hsucc
    exact hsucc rfl
  have heq := insert_char_eq cur cs hrep pos ch hch hpos hpe hroom
  have hrep1 := insert_char_stateRep cur cs hrep pos ch hch hpos hpe hroom
  have hp : pos.toNat ≤ cs.length := by
    have h := hrep.2.2.2.1
    omega
  have hlt1 : pos < ((insert_char cur pos ch).2.chars : Int) := by
    rw [heq]
    dsimp only
    push_cast
    omega
  have hrep2 := remove_char_stateRep _ _ hrep1 pos hpos hlt1
  rw [List.eraseIdx_insertIdx pos.toNat cs] at hrep2
  have hlen2 : (remove_char (insert_char cur pos ch).2 pos).2.len = cur.len := by
    have e1 := stateRep_encLen hrep2
    have e2 := stateRep_encLen hrep
    omega
  have hremeq := remove_char_eq _ _ hrep1 pos hpos hlt1
  refine ⟨?_, hlen2, ?_, ?_, ?_⟩
  · rw [hrep2.2.2.1, hrep.2.2.1]
  · rw [hrep2.2.2.2.1, hrep.2.2.2.1]
  · rw [hremeq]
    dsimp only
    rw [heq]
    dsimp only
    split_ifs <;> omega
  · rw [hremeq]
    dsimp only
    rw [heq]

/-- Claim C8 as amended: remove_chars removes and returns min(n, chars - pos)
characters; the removed span is saved into the capture slot (replacing any
previous capture) exactly when all n requested characters exist, that is
when pos + n is at most chars; when n overshoots, the capture slot is left
unchanged even though min(n, chars - pos) characters are still removed. -/
theorem remove_chars_spec (cur : Current) (cs : List Nat) (hrep : stateRep cur cs)
    (pos n : Int) (hn : 1 ≤ n) (hpos : 0 ≤ pos) (hpe : pos ≤ (cur.chars : Int)) :
    (remove_chars cur pos n).1 = min n.toNat (cur.chars - pos.toNat) ∧
    (pos + n ≤ (cur.chars : Int) →
      (remove_chars cur pos n).2.capture
        = some (encodeList ((cs.drop pos.toNat).take n.toNat))) ∧
    ((cur.chars : Int) < pos + n → (remove_chars cur pos n).2.capture = cur.capture) := by
  have hcap := capture_chars_spec cur cs hrep pos n hpos hn
  unfold remove_chars
  by_cases hle : pos + n ≤ (cur.chars : Int)
  · rw [hcap.1 hle]
    have hloop := remove_chars_loop_spec n.toNat n
      { cur with capture := some (encodeList ((cs.drop pos.toNat).take n.toNat)) } pos
      (by omega) rfl hpos
    refine ⟨?_, fun _ => ?_, fun hgt => absurd hle (by omega)⟩
    · rw [hloop.1]
    · rw [hloop.2]
  · have hgt : (cur.chars : Int) < pos + n := by omega
    rw [hcap.2 hgt]
    have hloop := remove_chars_loop_spec n.toNat n cur pos (by omega) rfl hpos
    exact ⟨hloop.1, fun hle2 => absurd hle2 (by omega), fun _ => hloop.2⟩

/-- Blank edit state over an 8-byte buffer and an 80-column window. -/
def curBlank : Current := ⟨[0, 0, 0, 0, 0, 0, 0, 0], 8, 0, 0, 0, 80, [], none⟩

/-- Reachable edit state: set_current with the 2-byte scalar 0xE9 followed by
the letter a, then remove_char of the 2-byte scalar at index 0. The removal
leaves a stale content byte 0x61 behind the new NUL terminator. -/
def curS1 : Current := (remove_char (set_current curBlank [0xC3, 0xA9, 0x61]) 0).2

/-- Claim C1: the state curS1 is reachable through set_current and
remove_char and satisfies the buffer invariant, yet insert_char of the
scalar x at the end of the buffer leaves buf[len] equal to the stale byte
0x61 instead of 0, breaking the NUL-terminator invariant I1: the memmove in
insert_char does not move the terminator, unlike the one in remove_char.
After this call the buffer read as a C string is axa instead of ax. -/
theorem insert_char_null_termination_bug :
    buffer_inv curS1 ∧
    (insert_char curS1 1 120).2.buf.getD (insert_char curS1 1 120).2.len 0 = 0x61 ∧
    (insert_char curS1 1 120).2.buf = [0x61, 0x78, 0x61, 0, 0, 0, 0, 0] ∧
    (insert_char curS1 1 120).2.len = 2 := by
  refine ⟨⟨⟨[0x61], ?_⟩, by decide, by decide⟩, by decide, by decide, by decide⟩
  show stateRep curS1 [0x61]
  refine ⟨by decide, by decide, by decide, by decide, by decide, by decide⟩

/-- State satisfying the buffer invariant with a stale byte 0x7A at index 2,
one byte past the NUL terminator, as left behind by a prior multibyte
removal. -/
def curAZ : Current := ⟨[97, 0, 122, 0, 0, 0, 0, 0], 8, 1, 1, 1, 80, [], none⟩

/-- Counterexample to claim C4 as stated: on the invariant-satisfying state
curAZ, insert_char of x at position 1 succeeds and remove_char at 1 undoes
it, yet the buffer is not byte-for-byte equal to the pre-state: the stale
byte 0x7A has been pulled over the NUL terminator slot, so even the bytes
up to and including index len differ (the C string now reads azz instead
of a). -/
theorem insert_remove_roundtrip_cex :
    buffer_inv curAZ ∧
    (insert_char curAZ 1 120).1 ≠ 0 ∧
    (remove_char (insert_char curAZ 1 120).2 1).2.buf ≠ curAZ.buf ∧
    (remove_char (insert_char curAZ 1 120).2 1).2.buf.take
        ((remove_char (insert_char curAZ 1 120).2 1).2.len + 1)
      ≠ curAZ.buf.take (curAZ.len + 1) := by
  refine ⟨⟨⟨[97], ?_⟩, by decide, by decide⟩, by decide, by decide, by decide⟩
  show stateRep curAZ [97]
  refine ⟨by decide, by decide, by decide, by decide, by decide, by decide⟩

/-- Witness for the amended claim C4 at a concrete input: the content bytes,
len, chars, cursor and capture are restored on curAZ. -/
theorem insert_remove_roundtrip_witness :
    (remove_char (insert_char curAZ 1 120).2 1).2.buf.take
        (remove_char (insert_char curAZ 1 120).2 1).2.len = curAZ.buf.take curAZ.len ∧
    (remove_char (insert_char curAZ 1 120).2 1).2.len = curAZ.len ∧
    (remove_char (insert_char curAZ 1 120).2 1).2.chars = curAZ.chars ∧
    (remove_char (insert_char curAZ 1 120).2 1).2.pos = curAZ.pos ∧
    (remove_char (insert_char curAZ 1 120).2 1).2.capture = curAZ.capture :=
  insert_remove_roundtrip curAZ [97]
    ⟨by decide, by decide, by decide, by decide, by decide, by decide⟩
    1 120 (by decide) (by decide) (by decide) (by decide)

/-- State with content abc, cursor at the end, in a 5-column window. -/
def curABC : Current := ⟨[97, 98, 99, 0, 0, 0, 0, 0], 8, 3, 3, 3, 5, [], none⟩

/-- Counterexample to claim C3 as stated: inserting x at the end of curABC
takes the fast path and returns 2, although the total visible width after
the insertion (0 prompt scalars plus 4 buffer scalars, all printable) is 4,
which is not strictly less than cols - 1 = 4; the code only requires the
width BEFORE the insertion to be below cols - 1. -/
theorem insert_char_fastpath_cex :
    (insert_char curABC 3 120).1 = 2 ∧
    ¬ ((utf8_strlen curABC.prompt (-1) : Int) + (curABC.chars + 1) < curABC.cols - 1) := by
  constructor <;> decide

/-- Witness for the amended claim C3 at a concrete input. -/
theorem insert_char_return_spec_witness :
    ((insert_char curAZ 1 120).1 = 0 ↔ ¬ has_room curAZ (utf8_getchars 120).length) ∧
    (insert_char curAZ 1 120).2.len = curAZ.len + (utf8_getchars 120).length ∧
    ((insert_char curAZ 1 120).1 = 2 ↔
      curAZ.pos = (1 : Int).toNat ∧ curAZ.chars = (1 : Int).toNat ∧ 0x20 ≤ 120 ∧
        (utf8_strlen curAZ.prompt (-1) : Int) + (curAZ.chars : Int) < curAZ.cols - 1) := by
  have hh := insert_char_return_spec curAZ [97]
    ⟨by decide, by decide, by decide, by decide, by decide, by decide⟩
    1 120 (by decide) (by decide) (by decide)
  have h2 := hh.2 (by decide)
  exact ⟨hh.1, h2.2.1, h2.2.2⟩

/-- State with content ab, cursor at the end, and an old capture q. -/
def curAB : Current := ⟨[97, 98, 0, 0, 0, 0, 0, 0], 8, 2, 2, 2, 80, [], some [113]⟩

/-- Counterexample to claim C8 as stated: remove_chars(0, 3) on curAB removes
both characters and returns 2 = min(3, 2), but because the full requested
span of 3 characters does not exist, capture_chars declines to capture and
the capture slot still holds the old q instead of the removed span ab. -/
theorem remove_chars_capture_cex :
    (remove_chars curAB 0 3).1 = 2 ∧
    (remove_chars curAB 0 3).2.chars = 0 ∧
    (remove_chars curAB 0 3).2.capture = some [113] ∧
    some [113] ≠ some [97, 98] := by
  refine ⟨?_, ?_, ?_, by decide⟩ <;>
    simp [remove_chars, remove_chars_loop, remove_char, capture_chars, utf8_index,
      utf8_charlen, listWrite, listSlice, utf8_strlen, utf8_strlen_aux, utf8_tounicode,
      curAB]

/-- Witness for the amended claim C8 at a concrete input: a fully contained
span is captured and counted. -/
theorem remove_chars_spec_witness :
    (remove_chars curAB 0 2).1 = min (2 : Int).toNat (curAB.chars - (0 : Int).toNat) ∧
    (remove_chars curAB 0 2).2.capture
      = some (encodeList ((([97, 98] : List Nat).drop (0 : Int).toNat).take (2 : Int).toNat)) := by
  have hh := remove_chars_spec curAB [97, 98]
    ⟨by decide, by decide, by decide, by decide, by decide, by decide⟩
    0 2 (by decide) (by decide) (by decide)
  exact ⟨hh.1, hh.2.1 (by decide)⟩

theorem historyEncodeEntry_structure (e : List Nat) :
    ∃ p, historyEncodeEntry e = p ++ [10] ∧ ∀ b ∈ p, b ≠ 10 := by
  induction e with
  | nil => exact ⟨[], rfl, by simp⟩
  | cons b bs ih =>
    obtain ⟨p, hp, hnot⟩ := ih
    refine ⟨(if b = 92 then [92, 92]
             else if b = 10 then [92, 110]
             else if b = 13 then [92, 114]
             else [b]) ++ p, ?_, ?_⟩
    · rw [historyEncodeEntry, hp, List.append_assoc]
    · intro x hx
      rcases List.mem_append.mp hx with hx2 | hx2
      · split_ifs at hx2 <;> simp at hx2 <;> omega
      · exact hnot x hx2

theorem takeWhile_all_append (p : Nat → Bool) (l t : List Nat)
    (h : ∀ b ∈ l, p b = true) :
    (l ++ t).takeWhile p = l ++ t.takeWhile p := by
  induction l with
  | nil => rfl
  | cons b bs ih =>
    rw [List.cons_append, List.takeWhile_cons, if_pos (h b (List.mem_cons_self b bs)),
      ih (fun x hx => h x (List.mem_cons_of_mem b hx)), List.cons_append]

theorem fgetsLine_encoded (e rest : List Nat)
    (hlen : (historyEncodeEntry e).length ≤ 4095) :
    fgetsLine (historyEncodeEntry e ++ rest) = (historyEncodeEntry e, rest) := by
  obtain ⟨p, hp, hnot⟩ := historyEncodeEntry_structure e
  have hplen : p.length + 1 ≤ 4095 := by
    rw [hp, List.length_append] at hlen
    simpa using hlen
  unfold fgetsLine
  dsimp only
  rw [hp, List.append_assoc, List.singleton_append]
  rw [takeWhile_all_append _ p (10 :: rest) (fun b hb => by simpa using hnot b hb)]
  rw [List.takeWhile_cons, if_neg (by simp), List.append_nil]
  have hm : min (p.length + 1) 4095 = p.length + 1 := by omega
  rw [hm]
  have hlen10 : p.length + 1 = (p ++ [10]).length := by simp
  have hsplit : p ++ 10 :: rest = (p ++ [10]) ++ rest := by simp
  simp only [Prod.mk.injEq]
  constructor
  · rw [hlen10, hsplit]
    exact List.take_left _ _
  · rw [hlen10, hsplit]
    exact List.drop_left _ _

theorem historyDecodeLine_encoded (e : List Nat) (h0 : ∀ b ∈ e, b ≠ 0) :
    historyDecodeLine (historyEncodeEntry e) = e ++ [10] := by
  induction e with
  | nil => rfl
  | cons b bs ih =>
    have hb0 : b ≠ 0 := h0 b (List.mem_cons_self b bs)
    have ih2 := ih (fun x hx => h0 x (List.mem_cons_of_mem b hx))
    rw [historyEncodeEntry]
    by_cases h92 : b = 92
    · subst h92
      simp [historyDecodeLine, ih2]
    · by_cases h10 : b = 10
      · subst h10
        simp [historyDecodeLine, ih2]
      · by_cases h13 : b = 13
        · subst h13
          simp [historyDecodeLine, ih2]
        · simp only [if_neg h92, if_neg h10, if_neg h13, List.singleton_append]
          rw [historyDecodeLine.eq_def]
          dsimp only
          rw [if_neg hb0, if_neg h92, ih2, List.cons_append]

theorem stripTrailingCrlf_entry (e : List Nat)
    (hlast : ∀ x ∈ e.getLast?, ¬ (x = 10 ∨ x = 13)) :
    stripTrailingCrlf (e ++ [10]) = e := by
  unfold stripTrailingCrlf
  have hrev : (e ++ [10]).reverse = 10 :: e.reverse := by simp
  rw [hrev, List.dropWhile_cons, if_pos (by simp)]
  rcases List.eq_nil_or_concat e with he | ⟨l, a, he⟩
  · subst he
    simp
  · subst he
    have hrev2 : (l.concat a).reverse = a :: l.reverse := by simp
    have ha : ¬ (a = 10 ∨ a = 13) := hlast a (by simp)
    rw [hrev2, List.dropWhile_cons, if_neg (by simpa using ha)]
    simp

theorem historyLoadLoop_cons (b : Nat) (t : List Nat) (h : History) :
    historyLoadLoop (b :: t) h
      = historyLoadLoop (fgetsLine (b :: t)).2
          (linenoiseHistoryAdd h
            (stripTrailingCrlf (historyDecodeLine (fgetsLine (b :: t)).1))).2 := by
  rw [historyLoadLoop.eq_def]

theorem historyLoadLoop_saved : ∀ (es : List (List Nat)) (h : History),
    (∀ e ∈ es, ∀ b ∈ e, b ≠ 0) →
    (∀ e ∈ es, (historyEncodeEntry e).length ≤ 4095) →
    (∀ e ∈ es, ∀ x ∈ e.getLast?, ¬ (x = 10 ∨ x = 13)) →
    h.entries.length + es.length ≤ h.maxLen →
    List.Chain' (fun a b => a ≠ b) (h.entries ++ es) →
    historyLoadLoop (historySaveBytes es) h
      = { entries := h.entries ++ es, maxLen := h.maxLen } := by
  intro es
  induction es with
  | nil =>
    intro h _ _ _ _ _
    rw [historySaveBytes, historyLoadLoop]
    simp
  | cons e es2 ih =>
    intro h h0 hlen hlast hcap hchain
    rw [historySaveBytes]
    have hne : historyEncodeEntry e ++ historySaveBytes es2 ≠ [] := by
      obtain ⟨p, hp, _⟩ := historyEncodeEntry_structure e
      rw [hp]
      simp
    obtain ⟨b, t, hbt⟩ := List.exists_cons_of_ne_nil hne
    rw [hbt, historyLoadLoop_cons, ← hbt]
    rw [fgetsLine_encoded e (historySaveBytes es2) (hlen e (List.mem_cons_self e es2))]
    rw [historyDecodeLine_encoded e (h0 e (List.mem_cons_self e es2))]
    rw [stripTrailingCrlf_entry e (hlast e (List.mem_cons_self e es2))]
    have hmax : ¬ h.maxLen = 0 := by
      simp only [List.length_cons] at hcap
      omega
    have hlastne : ¬ h.entries.getLast? = some e := by
      intro hsome
      have hpair := (List.chain'_append.mp hchain).2.2
      exact hpair e hsome e (by simp) rfl
    have hnotcap : ¬ h.entries.length = h.maxLen := by
      simp only [List.length_cons] at hcap
      omega
    have hadd : linenoiseHistoryAdd h e
        = (1, { h with entries := h.entries ++ [e] }) := by
      unfold linenoiseHistoryAdd
      rw [if_neg hmax, if_neg hlastne, if_neg hnotcap]
    rw [hadd]
    have hrec := ih { h with entries := h.entries ++ [e] }
      (fun x hx => h0 x (List.mem_cons_of_mem e hx))
      (fun x hx => hlen x (List.mem_cons_of_mem e hx))
      (fun x hx => hlast x (List.mem_cons_of_mem e hx))
      (by simp only [List.length_append, List.length_cons, List.length_nil] at hcap ⊢; omega)
      (by rw [List.append_assoc, List.singleton_append]; exact hchain)
    rw [hrec]
    simp [List.append_assoc]

/-- Counterexample to claim C2 as stated: the single-entry history [a LF]
(the two bytes 97, 10) saves as the escaped line a backslash n LF, but load
decodes it to a LF LF and then strips ALL trailing CR and LF bytes of the
decoded entry, so the reloaded history holds the entry a instead: entries
ending in LF or CR do not round-trip. -/
theorem history_roundtrip_cex :
    historySaveBytes [[97, 10]] = [97, 92, 110, 10] ∧
    historyLoadLoop (historySaveBytes [[97, 10]]) ⟨[], 100⟩ = ⟨[[97]], 100⟩ ∧
    ([[97]] : List (List Nat)) ≠ [[97, 10]] := by
  refine ⟨by decide, ?_, by decide⟩
  simp [historyLoadLoop, historySaveBytes, historyEncodeEntry, fgetsLine,
    historyDecodeLine, stripTrailingCrlf, linenoiseHistoryAdd]

/-- Claim C2 as amended: saving and reloading into an empty history with the
same maximum reproduces the entries exactly, including embedded backslash,
LF and CR bytes, provided the entries are NUL-free, no entry ends in LF or
CR (load strips trailing CR and LF of each decoded entry), no two adjacent
entries are equal (add deduplicates), the count fits the maximum, and each
encoded line fits the 4096-byte fgets buffer. -/
theorem history_save_load_roundtrip (entries : List (List Nat)) (maxLen : Nat)
    (h0 : ∀ e ∈ entries, ∀ b ∈ e, b ≠ 0)
    (hcount : entries.length ≤ maxLen)
    (hchain : List.Chain' (fun a b => a ≠ b) entries)
    (hlen : ∀ e ∈ entries, (historyEncodeEntry e).length ≤ 4095)
    (hlast : ∀ e ∈ entries, ∀ x ∈ e.getLast?, ¬ (x = 10 ∨ x = 13)) :
    historyLoadLoop (historySaveBytes entries) ⟨[], maxLen⟩ = ⟨entries, maxLen⟩ := by
  have hh := historyLoadLoop_saved entries ⟨[], maxLen⟩ h0 hlen hlast
    (by simpa using hcount) (by simpa using hchain)
  simpa using hh

/-- Witness for the amended claim C2: a history with embedded backslash, LF
and CR bytes round-trips exactly. The entries are a backslash b, c LF d, and
e CR f. -/
theorem history_save_load_roundtrip_witness :
    historyLoadLoop (historySaveBytes [[97, 92, 98], [99, 10, 100], [101, 13, 102]])
        ⟨[], 100⟩
      = ⟨[[97, 92, 98], [99, 10, 100], [101, 13, 102]], 100⟩ :=
  history_save_load_roundtrip [[97, 92, 98], [99, 10, 100], [101, 13, 102]] 100
    (by decide) (by decide)
    (List.chain'_cons.mpr ⟨by decide, List.chain'_cons.mpr ⟨by decide,
      List.chain'_singleton _⟩⟩)
    (by decide) (by decide)
